import Mathlib

/-!
Shallow embedding of the FMCW radar demo signal pipeline (`src/app.rs`).

Floating point numbers (`f64`) are modelled as exact rationals `ℚ`; every
`f64` value is a rational, and the spec's "exact arithmetic" statements are
settled against this model.  Rust panics (out-of-bounds indexing on an empty
list) are modelled by `Option.none`.  Slice indexing that is in bounds at
every call site inside `App::update` is modelled with `List.getD`; theorems
about those functions carry the corresponding in-bounds hypotheses or compare
expressions that use the same defaults on both sides.
-/

namespace FMCW

/-- Constant `SPEED_OF_LIGHT`, app.rs line 47 (`299999000.0`). -/
def SPEED_OF_LIGHT : ℚ := 299999000

/-- Truncation toward zero: the rounding used by the hardware `f64` remainder
operator (`%` in Rust computes `a - b * trunc (a / b)`, keeping the sign of
the dividend). -/
def ratTrunc (q : ℚ) : ℤ := if 0 ≤ q then ⌊q⌋ else ⌈q⌉

/-- The Rust `f64` remainder `a % b`: sign-preserving remainder
`a - b * trunc (a / b)`.  (`fmod` is exact on the reals it receives, so over
`ℚ` this is the exact semantics whenever `b ≠ 0`.) -/
def rustRem (a b : ℚ) : ℚ := a - b * ratTrunc (a / b)

/-- The segment-selection loop inside `saw` (app.rs lines 57-65): walk the
chirp durations accumulating `total_period`; on the first segment `p` with
`t_wrapped < total_period + p`, break with `(total_period, p)`.  `none` means
the loop ran to completion without breaking (in the source, `total_period`
then holds the full sum and `current_period` keeps its initial value
`period[0]`). -/
def sawLoop (tw : ℚ) : List ℚ → ℚ → Option (ℚ × ℚ)
  | [], _ => none
  | p :: ps, acc => if tw < acc + p then some (acc, p) else sawLoop tw ps (acc + p)

/-- One element of `saw`'s iterator map (app.rs lines 53-70).  `none` models
the `period[0]` index-out-of-bounds panic when the chirp list is empty. -/
def sawElem (tc : List ℚ) (t : ℚ) : Option ℚ :=
  match tc with
  | [] => none
  | p0 :: rest =>
    let total_duration := (p0 :: rest).sum
    let t_wrapped := rustRem t total_duration
    let sel := (sawLoop t_wrapped (p0 :: rest) 0).getD (total_duration, p0)
    some ((t_wrapped - sel.1) / sel.2)

/-- Function `saw` (app.rs lines 49-72): map the sawtooth fraction over the time
vector.  The whole call is `none` when any element panics (empty chirp list
and at least one time sample). -/
def saw (ts tc : List ℚ) : Option (List ℚ) :=
  match ts with
  | [] => some []
  | t :: ts_rest => (sawElem tc t).bind fun v => (saw ts_rest tc).map fun vs => v :: vs

/-- The instantaneous transmitted frequency: the sawtooth fraction scaled as
`fraction * bandwidth + carrier_frequency`, exactly as `App::update` maps the
`saw` output (app.rs lines 221-224) and as `beat_frequencies` does for the
range-delayed copy (lines 96-99). -/
def frequency_at (tc : List ℚ) (carrier_frequency bandwidth t : ℚ) : Option ℚ :=
  (sawElem tc t).map fun s => s * bandwidth + carrier_frequency

/-- Function `doppler_shift` (app.rs lines 74-78). -/
def doppler_shift (frequency velocity : ℚ) : ℚ :=
  frequency * ((SPEED_OF_LIGHT - velocity) / (SPEED_OF_LIGHT + velocity) - 1)

/-- Function `beat_frequencies` (app.rs lines 80-110).  `none` models a panic: either
inside `saw` (empty chirp list) or the `f[i]` indexing panic when `f` is
shorter than `t`. -/
def beat_frequencies (t f : List ℚ) (range velocity carrier_frequency bandwidth : ℚ)
    (chirps : List ℚ) : Option (List ℚ) :=
  let timeshift_due_to_range := 2 * range / SPEED_OF_LIGHT
  let time_at_range := t.map fun ti => ti - timeshift_due_to_range
  (saw time_at_range chirps).bind fun saw_values_at_range =>
    let range_frequencies := saw_values_at_range.map fun s => s * bandwidth + carrier_frequency
    if t.length ≤ f.length then
      some ((List.range t.length).map fun i =>
        doppler_shift (f.getD i 0) velocity + (range_frequencies.getD i 0 - f.getD i 0))
    else none

/-- Function `sample_signal` (app.rs lines 112-123).  The transcendental `f64` sine
and the `f64` constant `PI` are runtime-library primitives, not code of this
repository, so they are parameters: `sinF` is the `f64` sine function (a map
from rational `f64` inputs to rational `f64` outputs) and `piF` the rational
value of `std::f64::consts::PI`. -/
def sample_signal (sinF : ℚ → ℚ) (piF : ℚ) (t frequencies : List ℚ) : List ℚ :=
  t.map fun t_val => frequencies.foldl (fun sum f => sum + sinF (2 * piF * f * t_val)) 0

/-- Function `fftspectrum` (app.rs lines 125-150).  The FFT itself is the external
`rustfft` library, not code of this repository, so the transform is a
parameter `fftProcess` acting on complex values modelled as pairs
`(re, im) : ℚ × ℚ`, and `normF` is the external `Complex::norm`
(the euclidean magnitude).  `rustfft` preserves the buffer length; theorems
take that as a hypothesis. -/
def fftspectrum (fftProcess : List (ℚ × ℚ) → List (ℚ × ℚ)) (normF : ℚ × ℚ → ℚ)
    (signal : List ℚ) (sampling_rate : ℚ) : List (ℚ × ℚ) :=
  let n := signal.length
  let buffer := fftProcess (signal.map fun x => (x, 0))
  ((buffer.take (n / 2)).enum).map fun ic =>
    ((ic.1 : ℚ) * sampling_rate / (n : ℚ), normF ic.2 / (n : ℚ) * 2)

/-- The comparison step of `Iterator::min_by` with the comparator of
`idx_at_t` (app.rs line 156): keep the current minimum unless it compares
`Greater`, i.e. replace `best` by `y` exactly when
`|best.2 - t| > |y.2 - t|`; on ties the earlier element is kept. -/
def min_by_step (t : ℚ) (best y : ℕ × ℚ) : ℕ × ℚ :=
  if |best.2 - t| > |y.2 - t| then y else best

/-- The iterator adapter `min_by` over the enumerated vector, with the first of equally
minimal elements returned (the documented Rust semantics). -/
def min_by_abs (t : ℚ) (xs : List (ℕ × ℚ)) : Option (ℕ × ℚ) :=
  match xs with
  | [] => none
  | x :: rest => some (rest.foldl (min_by_step t) x)

/-- Function `idx_at_t` (app.rs lines 152-159): index of the element of `v` nearest
to `t`, `0` for an empty vector (`unwrap_or(0)`). -/
def idx_at_t (v : List ℚ) (t : ℚ) : ℕ :=
  ((min_by_abs t v.enum).map Prod.fst).getD 0

/-- The per-index local baseline of `multiple_peak_finding` (app.rs lines
169-180): the mean of `signal[index..min(index+2, len)]`. -/
def baseline (signal : List ℚ) (index : ℕ) : ℚ :=
  if signal.isEmpty then 0
  else
    let start := index
    let stop := min (index + 2) signal.length
    if start < stop then ((signal.drop start).take (stop - start)).sum / ((stop - start : ℕ) : ℚ)
    else 0

/-- One iteration of the `multiple_peak_finding` scan (app.rs lines 168-191),
acting on the state `(peak_indices, candidate)` where `candidate` bundles the
source's `peak_index`/`peak_value` pair (always both `None` or both
`Some`). -/
def mpf_step (signal : List ℚ) (st : List ℕ × Option (ℕ × ℚ)) (iv : ℕ × ℚ) :
    List ℕ × Option (ℕ × ℚ) :=
  let b := baseline signal iv.1
  if iv.2 > b then
    match st.2 with
    | none => (st.1, some iv)
    | some pc => if iv.2 > pc.2 then (st.1, some iv) else st
  else if iv.2 < b ∧ st.2.isSome then
    match st.2 with
    | some pc => (st.1 ++ [pc.1], none)
    | none => st
  else st

/-- Function `multiple_peak_finding` (app.rs lines 163-196). -/
def multiple_peak_finding (signal : List ℚ) : List ℕ :=
  let fin := signal.enum.foldl (mpf_step signal) ([], none)
  match fin.2 with
  | some pc => fin.1 ++ [pc.1]
  | none => fin.1

/-- One entry of `App::objects` (app.rs line 7): the tuple
`(f64, f64, Color32, bool, Vec<f64>)` holding range, velocity, display color
(elided: display-only), the enabled flag, and the derived beat-frequency
series. -/
structure RadarObject where
  range : ℚ
  velocity : ℚ
  enabled : Bool
  bf : List ℚ
deriving DecidableEq

/-- The frequency-collection loop of `App::update` (app.rs lines 268-273):
over the first three objects, push `obj.4[idx]` for each enabled object whose
beat series is long enough. -/
def collect_frequencies (objects : List RadarObject) (idx : ℕ) : List ℚ :=
  (objects.take 3).foldl
    (fun frequencies obj =>
      if obj.enabled = true ∧ idx < obj.bf.length then frequencies ++ [obj.bf.getD idx 0]
      else frequencies)
    []

/-- The range formula of the ambiguity-line projector (app.rs lines 304-307):
`-(doppler_shift f0 v - bf) * chirp_duration / bandwidth / 2 * SPEED_OF_LIGHT`. -/
def range_at (f0 bf chirp_duration bandwidth v : ℚ) : ℚ :=
  -(doppler_shift f0 v - bf) * chirp_duration / bandwidth / 2 * SPEED_OF_LIGHT

/-- The ambiguity-line loop of `App::update` (app.rs lines 294-311),
translated with its nested `for` loops as folds: for each window index `i`
with peak list `peaks`, look up `f0 = f[idx_at_t t start_times[i]]` and push
one line `((range_at f0 bf chirps[i] bw (-50), 50),
(range_at f0 bf chirps[i] bw 50, -50))` per peak `(bf, _)`.  Indexing
(`start_times[i]`, `chirps[i]`, `f[idx]`) is in bounds at the call site in
`App::update` and is modelled with `getD`. -/
def ambiguity_lines (t f chirps start_times : List ℚ) (bandwidth : ℚ)
    (fft_peaks : List (List (ℚ × ℚ))) : List ((ℚ × ℚ) × (ℚ × ℚ)) :=
  let v_min : ℚ := -50
  let v_max : ℚ := 50
  fft_peaks.enum.foldl
    (fun lines ipeaks =>
      let idx := idx_at_t t (start_times.getD ipeaks.1 0)
      let f0 := f.getD idx 0
      ipeaks.2.foldl
        (fun lines2 p =>
          lines2 ++ [((range_at f0 p.1 (chirps.getD ipeaks.1 0) bandwidth v_min, -v_min),
                      (range_at f0 p.1 (chirps.getD ipeaks.1 0) bandwidth v_max, -v_max))])
        lines)
    []

/-! ## Helper lemmas -/

theorem rustRem_nonneg_lt (a b : ℚ) (ha : 0 ≤ a) (hb : 0 < b) :
    0 ≤ rustRem a b ∧ rustRem a b < b := by
  have hb' : b ≠ 0 := ne_of_gt hb
  have hq : 0 ≤ a / b := div_nonneg ha hb.le
  have htr : ratTrunc (a / b) = ⌊a / b⌋ := if_pos hq
  have h1 : (⌊a / b⌋ : ℚ) ≤ a / b := Int.floor_le _
  have h2 : a / b < ⌊a / b⌋ + 1 := Int.lt_floor_add_one _
  have hc : b * (a / b) = a := by field_simp
  have h3 : b * (⌊a / b⌋ : ℚ) ≤ b * (a / b) := by
    exact mul_le_mul_of_nonneg_left h1 hb.le
  have h4 : b * (a / b) < b * ((⌊a / b⌋ : ℚ) + 1) := by
    exact mul_lt_mul_of_pos_left h2 hb
  constructor
  · unfold rustRem
    rw [htr]
    linarith [h3, hc]
  · unfold rustRem
    rw [htr]
    have : b * ((⌊a / b⌋ : ℚ) + 1) = b * (⌊a / b⌋ : ℚ) + b := by ring
    linarith [h4, hc, this]

theorem rustRem_add_self (a b : ℚ) (ha : 0 ≤ a) (hb : 0 < b) :
    rustRem (a + b) b = rustRem a b := by
  have hb' : b ≠ 0 := ne_of_gt hb
  have hq : 0 ≤ a / b := div_nonneg ha hb.le
  have hdiv : (a + b) / b = a / b + 1 := by field_simp
  have hq1 : 0 ≤ a / b + 1 := by linarith
  have ht1 : ratTrunc ((a + b) / b) = ⌊a / b⌋ + 1 := by
    rw [hdiv]
    unfold ratTrunc
    rw [if_pos hq1]
    exact_mod_cast Int.floor_add_one (a / b)
  have ht2 : ratTrunc (a / b) = ⌊a / b⌋ := if_pos hq
  unfold rustRem
  rw [ht1, ht2]
  push_cast
  ring

theorem sawLoop_success (tw : ℚ) :
    ∀ (l : List ℚ) (acc : ℚ), acc ≤ tw → tw < acc + l.sum →
      ∃ tp cp, sawLoop tw l acc = some (tp, cp) ∧ tp ≤ tw ∧ tw < tp + cp := by
  intro l
  induction l with
  | nil =>
    intro acc hacc hlt
    simp only [List.sum_nil, add_zero] at hlt
    exact absurd hlt (not_lt.mpr hacc)
  | cons p ps ih =>
    intro acc hacc hlt
    by_cases h : tw < acc + p
    · exact ⟨acc, p, by simp [sawLoop, h], hacc, h⟩
    · push_neg at h
      have hlt' : tw < (acc + p) + ps.sum := by
        simp only [List.sum_cons] at hlt
        linarith
      obtain ⟨tp, cp, hres, h1, h2⟩ := ih (acc + p) h hlt'
      exact ⟨tp, cp, by simp [sawLoop, not_lt.mpr h, hres], h1, h2⟩

theorem sawElem_bounds_of_nonneg (tc : List ℚ) (t : ℚ) (hne : tc ≠ [])
    (hsum : 0 < tc.sum) (ht : 0 ≤ t) :
    ∀ fr, sawElem tc t = some fr → 0 ≤ fr ∧ fr < 1 := by
  intro fr hfr
  obtain ⟨p0, rest, rfl⟩ := List.exists_cons_of_ne_nil hne
  obtain ⟨hw0, hw1⟩ := rustRem_nonneg_lt t (p0 :: rest).sum ht hsum
  obtain ⟨tp, cp, hloop, h1, h2⟩ :=
    sawLoop_success (rustRem t (p0 :: rest).sum) (p0 :: rest) 0 hw0 (by linarith)
  have hcp : 0 < cp := by linarith
  simp only [sawElem, hloop, Option.getD_some, Option.some.injEq] at hfr
  subst hfr
  constructor
  · exact div_nonneg (by linarith) hcp.le
  · exact (div_lt_one hcp).mpr (by linarith)

/-- For nonnegative times the sawtooth-scaled transmitted frequency does lie
in the half-open interval `[carrier, carrier + bandwidth)`; the failure in
the claim is confined to negative times (see the counterexample at `t = -1/2`). -/
theorem frequency_at_bounds_of_nonneg (tc : List ℚ) (carrier bw t : ℚ) (hne : tc ≠ [])
    (hsum : 0 < tc.sum) (hbw : 0 < bw) (ht : 0 ≤ t) :
    ∀ y, frequency_at tc carrier bw t = some y → carrier ≤ y ∧ y < carrier + bw := by
  intro y hy
  simp only [frequency_at, Option.map_eq_some'] at hy
  obtain ⟨fr, hfr, rfl⟩ := hy
  obtain ⟨h0, h1⟩ := sawElem_bounds_of_nonneg tc t hne hsum ht fr hfr
  constructor
  · nlinarith
  · nlinarith

theorem sawElem_congr (tc : List ℚ) (t t' : ℚ)
    (h : rustRem t tc.sum = rustRem t' tc.sum) : sawElem tc t = sawElem tc t' := by
  cases tc with
  | nil => rfl
  | cons p0 rest => simp only [sawElem, h]

/-- For nonnegative times the waveform is periodic with period `tc.sum`;
the failure in the claim is confined to negative times. -/
theorem frequency_at_periodic_of_nonneg (tc : List ℚ) (carrier bw t : ℚ)
    (ht : 0 ≤ t) (hsum : 0 < tc.sum) :
    frequency_at tc carrier bw (t + tc.sum) = frequency_at tc carrier bw t := by
  unfold frequency_at
  rw [sawElem_congr tc (t + tc.sum) t (rustRem_add_self t tc.sum ht hsum)]

theorem saw_length : ∀ (ts tc : List ℚ) (l : List ℚ), saw ts tc = some l → l.length = ts.length := by
  intro ts
  induction ts with
  | nil =>
    intro tc l h
    simp only [saw, Option.some.injEq] at h
    subst h
    rfl
  | cons t ts ih =>
    intro tc l h
    simp only [saw, Option.bind_eq_some, Option.map_eq_some'] at h
    obtain ⟨v, _, vs, hvs, rfl⟩ := h
    simp [ih tc vs hvs]

theorem doppler_shift_zero (f : ℚ) : doppler_shift f 0 = 0 := by
  unfold doppler_shift SPEED_OF_LIGHT
  norm_num

/-! ## Claim theorems -/

/-- C1 (code_bug evaluation): at the failing input `chirp_durations = [1]`,
`carrier_frequency = 10`, `bandwidth = 2`, `t = -1/2`, the transmitted
frequency produced by the code is `9`, which lies below the carrier
frequency, so the claimed interval `[carrier, carrier + bandwidth) = [10, 12)`
is violated: the `f64` remainder preserves the dividend's sign, so the
wrapped time is `-1/2`, not an element of `[0, total)`. -/
theorem frequency_at_negative_time_out_of_range :
    frequency_at [1] 10 2 (-(1 / 2)) = some 9 ∧ ¬((10 : ℚ) ≤ 9) := by
  constructor
  · norm_num [frequency_at, sawElem, rustRem, ratTrunc, sawLoop]
    rw [show ⌈(-(1 / 2) : ℚ)⌉ = 0 from by norm_num]
    norm_num
  · norm_num

/-- C3 (code_bug evaluation): with the invalid configuration
`chirp_durations = [0]` (non-positive total) the sawtooth computation
proceeds and returns a value (in `f64` a NaN-filled vector) instead of
failing, and with `chirp_durations = []` it panics on `period[0]`
(modelled `none`) instead of returning a typed `InvalidConfig` error:
no validation or error type exists in the code. -/
theorem no_invalid_config_failure :
    (saw [(1 : ℚ)] [0]).isSome = true ∧ saw [(1 : ℚ)] [] = none := by
  constructor
  · rw [show saw [(1 : ℚ)] [0] = some [0] from by
      norm_num [saw, sawElem, rustRem, ratTrunc, sawLoop]]
    rfl
  · simp [saw, sawElem]

/-- C6: a target with `range = 0` and `velocity = 0` produces an exactly-zero
beat-frequency series at every grid time, for any carrier frequency,
bandwidth and chirp configuration, when the transmitted-frequency grid is
computed from the same sawtooth over the same time grid. -/
theorem beat_zero_target (t chirps : List ℚ) (carrier bw : ℚ) (sawVals : List ℚ)
    (hs : saw t chirps = some sawVals) :
    beat_frequencies t (sawVals.map fun s => s * bw + carrier) 0 0 carrier bw chirps
      = some (List.replicate t.length 0) := by
  have hlen : sawVals.length = t.length := saw_length t chirps sawVals hs
  have hmap : (t.map fun ti => ti - 2 * 0 / SPEED_OF_LIGHT) = t := by
    simp
  unfold beat_frequencies
  simp only [hmap, hs, Option.some_bind, List.length_map, hlen, le_refl, ite_true,
    Option.some.injEq]
  have hzero : ∀ i : ℕ,
      doppler_shift ((sawVals.map fun s => s * bw + carrier).getD i 0) 0 +
        ((sawVals.map fun s => s * bw + carrier).getD i 0 -
          (sawVals.map fun s => s * bw + carrier).getD i 0) = 0 := by
    intro i
    rw [doppler_shift_zero, sub_self, add_zero]
  calc ((List.range t.length).map fun i =>
          doppler_shift ((sawVals.map fun s => s * bw + carrier).getD i 0) 0 +
            ((sawVals.map fun s => s * bw + carrier).getD i 0 -
              (sawVals.map fun s => s * bw + carrier).getD i 0))
      = (List.range t.length).map fun _ => (0 : ℚ) := List.map_congr_left fun i _ => hzero i
    _ = List.replicate t.length 0 := by
        rw [List.map_const']
        simp

/-- C6 witness: the concrete instance `t = [0]`, `chirps = [1]`,
`carrier = 7`, `bandwidth = 3`. -/
theorem beat_zero_target_witness :
    saw [(0 : ℚ)] [1] = some [0] ∧
      beat_frequencies [(0 : ℚ)] ([(0 : ℚ)].map fun s => s * 3 + 7) 0 0 7 3 [1]
        = some (List.replicate ([(0 : ℚ)].length) 0) :=
  ⟨by norm_num [saw, sawElem, rustRem, ratTrunc, sawLoop],
   beat_zero_target [0] [1] 7 3 [0] (by norm_num [saw, sawElem, rustRem, ratTrunc, sawLoop])⟩

/-- C7 (code_bug evaluation): at the failing input `signal = []` the spectral
analyzer returns the empty spectrum — a normal value — rather than failing
with a typed `InvalidInput` error, for every FFT backend and norm. -/
theorem fftspectrum_empty_returns_value :
    ∀ (fftProcess : List (ℚ × ℚ) → List (ℚ × ℚ)) (normF : ℚ × ℚ → ℚ) (rate : ℚ),
      fftspectrum fftProcess normF [] rate = [] := by
  intro fftProcess normF rate
  simp [fftspectrum]

/-- C8 (code_bug evaluation): with `chirp_durations = [1]` (total `1`),
`carrier = 0`, `bandwidth = 2`, the waveform is not periodic at the failing
input `t = -1/2`: `frequency_at (t + total) = 1` while `frequency_at t = -1`,
because the sign-preserving `f64` remainder wraps negative times into
`(-total, 0]`. -/
theorem frequency_at_not_periodic_negative_time :
    frequency_at [1] 0 2 (-(1 / 2) + 1) ≠ frequency_at [1] 0 2 (-(1 / 2)) := by
  rw [show frequency_at [1] 0 2 (-(1 / 2) + 1) = some 1 from by
    norm_num [frequency_at, sawElem, rustRem, ratTrunc, sawLoop]]
  rw [show frequency_at [1] 0 2 (-(1 / 2)) = some (-1) from by
    norm_num [frequency_at, sawElem, rustRem, ratTrunc, sawLoop]
    rw [show ⌈(-(1 / 2) : ℚ)⌉ = 0 from by norm_num]
    norm_num]
  simp only [ne_eq, Option.some.injEq]
  norm_num

theorem foldl_push_eq_append {α β : Type} (g : α → β) :
    ∀ (l : List α) (acc : List β),
      l.foldl (fun ls p => ls ++ [g p]) acc = acc ++ l.map g := by
  intro l
  induction l with
  | nil => intro acc; simp
  | cons x xs ih =>
    intro acc
    simp only [List.foldl_cons, ih, List.map_cons]
    simp

theorem nested_foldl_eq_flatMap {γ : Type} (h : ℕ → ℚ × ℚ → γ) :
    ∀ (l : List (ℕ × List (ℚ × ℚ))) (acc : List γ),
      l.foldl (fun lines ip => ip.2.foldl (fun l2 p => l2 ++ [h ip.1 p]) lines) acc
        = acc ++ l.flatMap fun ip => ip.2.map (h ip.1) := by
  intro l
  induction l with
  | nil => intro acc; simp
  | cons ip l ih =>
    intro acc
    simp only [List.foldl_cons]
    rw [foldl_push_eq_append (h ip.1) ip.2 acc, ih, List.flatMap_cons]
    simp

/-- C2: for every capture window index `i` and every detected peak `(bf, _)`
in that window, the projector emits exactly the line from
`(range_at f0 bf chirps[i] bw v_min, -v_min)` to
`(range_at f0 bf chirps[i] bw v_max, -v_max)` with `v_min = -50`,
`v_max = 50` and `f0` the transmitted frequency at the grid time nearest the
window's start (`f[idx_at_t t start_times[i]]`), in window order and peak
order: the loop equals its closed form. -/
theorem ambiguity_lines_closed_form (t f chirps start_times : List ℚ) (bandwidth : ℚ)
    (fft_peaks : List (List (ℚ × ℚ))) :
    ambiguity_lines t f chirps start_times bandwidth fft_peaks
      = fft_peaks.enum.flatMap fun ip =>
          ip.2.map fun p =>
            ((range_at (f.getD (idx_at_t t (start_times.getD ip.1 0)) 0) p.1
                (chirps.getD ip.1 0) bandwidth (-50), 50),
             (range_at (f.getD (idx_at_t t (start_times.getD ip.1 0)) 0) p.1
                (chirps.getD ip.1 0) bandwidth 50, -50)) := by
  simp only [ambiguity_lines]
  rw [nested_foldl_eq_flatMap (fun i p =>
    ((range_at (f.getD (idx_at_t t (start_times.getD i 0)) 0) p.1
        (chirps.getD i 0) bandwidth (-50), -(-50 : ℚ)),
     (range_at (f.getD (idx_at_t t (start_times.getD i 0)) 0) p.1
        (chirps.getD i 0) bandwidth 50, -(50 : ℚ)))) fft_peaks.enum []]
  norm_num

theorem collect_foldl_eq_filter_map (idx : ℕ) :
    ∀ (l : List RadarObject) (acc : List ℚ),
      l.foldl (fun frequencies obj =>
          if obj.enabled = true ∧ idx < obj.bf.length then frequencies ++ [obj.bf.getD idx 0]
          else frequencies) acc
        = acc ++ (l.filter fun obj => decide (obj.enabled = true ∧ idx < obj.bf.length)).map
            fun obj => obj.bf.getD idx 0 := by
  intro l
  induction l with
  | nil => intro acc; simp
  | cons x xs ih =>
    intro acc
    by_cases hx : x.enabled = true ∧ idx < x.bf.length
    · simp only [List.foldl_cons, if_pos hx, List.filter_cons, hx,
        decide_eq_true_eq, if_true, List.map_cons, ih]
      simp
    · simp only [List.foldl_cons, if_neg hx, List.filter_cons, decide_eq_true_eq, hx,
        if_false, ih]

/-- C10: the sampled signal fed to the spectral analyzer collects beat tones
only from enabled targets among the first three objects: the collected
frequency list depends only on `objects.take 3`, equals the filter of the
first three objects by the enabled flag (and a long-enough beat series), and
the sampled signal built from it is likewise unchanged by anything past
index 2 — so a target at index 3 or beyond contributes nothing downstream
even when enabled. -/
theorem collect_frequencies_first_three (objects : List RadarObject) (idx : ℕ)
    (sinF : ℚ → ℚ) (piF : ℚ) (tg : List ℚ) :
    collect_frequencies objects idx = collect_frequencies (objects.take 3) idx ∧
    collect_frequencies objects idx
      = ((objects.take 3).filter fun obj =>
          decide (obj.enabled = true ∧ idx < obj.bf.length)).map (fun obj => obj.bf.getD idx 0) ∧
    sample_signal sinF piF tg (collect_frequencies objects idx)
      = sample_signal sinF piF tg (collect_frequencies (objects.take 3) idx) := by
  have h1 : collect_frequencies objects idx = collect_frequencies (objects.take 3) idx := by
    unfold collect_frequencies
    rw [List.take_take, min_self]
  refine ⟨h1, ?_, by rw [h1]⟩
  unfold collect_frequencies
  rw [collect_foldl_eq_filter_map]
  simp

/-- C4: for every input signal and sampling rate (and any length-preserving
FFT backend, as `rustfft` is), the spectral analyzer returns exactly
`⌊n/2⌋` bins, and bin `i` is
`(i * sampling_rate / n, (norm of the FFT output at bin i) / n * 2)`. -/
theorem fftspectrum_bins (fftProcess : List (ℚ × ℚ) → List (ℚ × ℚ)) (normF : ℚ × ℚ → ℚ)
    (signal : List ℚ) (rate : ℚ) (i : ℕ)
    (hlen : ∀ l, (fftProcess l).length = l.length) (hi : i < signal.length / 2) :
    (fftspectrum fftProcess normF signal rate).length = signal.length / 2 ∧
    (fftspectrum fftProcess normF signal rate)[i]? =
      some ((i : ℚ) * rate / (signal.length : ℚ),
        normF ((fftProcess (signal.map fun x => (x, 0))).getD i (0, 0)) /
          (signal.length : ℚ) * 2) := by
  have hb : (fftProcess (signal.map fun x => (x, 0))).length = signal.length := by
    rw [hlen, List.length_map]
  have hib : i < (fftProcess (signal.map fun x => (x, 0))).length := by
    rw [hb]
    exact lt_of_lt_of_le hi (Nat.div_le_self _ _)
  constructor
  · simp [fftspectrum, List.length_map, List.enum_length, List.length_take, hb,
      Nat.min_eq_left (Nat.div_le_self _ _)]
  · simp only [fftspectrum, List.getElem?_map, List.getElem?_enum, List.getElem?_take]
    rw [if_pos hi, List.getElem?_eq_getElem hib,
      List.getD_eq_getElem _ _ hib]
    rfl

/-- C4 witness: the concrete instance with the identity transform as FFT
backend, the real part as norm, `signal = [1, 2, 3, 4]`, `rate = 8`,
bin `i = 0`. -/
theorem fftspectrum_bins_witness :
    (fftspectrum id Prod.fst [1, 2, 3, 4] 8).length = ([1, 2, 3, 4] : List ℚ).length / 2 ∧
    (fftspectrum id Prod.fst [1, 2, 3, 4] 8)[0]? =
      some (((0 : ℕ) : ℚ) * 8 / ((([1, 2, 3, 4] : List ℚ).length : ℕ) : ℚ),
        Prod.fst ((id (([1, 2, 3, 4] : List ℚ).map fun x => (x, 0))).getD 0 (0, 0)) /
          ((([1, 2, 3, 4] : List ℚ).length : ℕ) : ℚ) * 2) :=
  fftspectrum_bins id Prod.fst [1, 2, 3, 4] 8 0 (fun _ => rfl) (by norm_num)

theorem mpf_step_inv (signal : List ℚ) (st : List ℕ × Option (ℕ × ℚ)) (iv : ℕ × ℚ)
    (hiv : iv.1 < signal.length ∧ signal.getD iv.1 0 = iv.2)
    (h1 : ∀ j ∈ st.1, j < signal.length ∧ baseline signal j < signal.getD j 0)
    (h2 : ∀ pc : ℕ × ℚ, st.2 = some pc →
      pc.1 < signal.length ∧ baseline signal pc.1 < signal.getD pc.1 0) :
    (∀ j ∈ (mpf_step signal st iv).1,
        j < signal.length ∧ baseline signal j < signal.getD j 0) ∧
    (∀ pc : ℕ × ℚ, (mpf_step signal st iv).2 = some pc →
        pc.1 < signal.length ∧ baseline signal pc.1 < signal.getD pc.1 0) := by
  have hiv2 : iv.2 > baseline signal iv.1 →
      iv.1 < signal.length ∧ baseline signal iv.1 < signal.getD iv.1 0 := by
    intro hgt
    exact ⟨hiv.1, by rw [hiv.2]; exact hgt⟩
  by_cases hgt : iv.2 > baseline signal iv.1
  · cases hst : st.2 with
    | none =>
      simp only [mpf_step, if_pos hgt, hst]
      exact ⟨h1, fun pc hpc => by
        simp only [Option.some.injEq] at hpc
        subst hpc
        exact hiv2 hgt⟩
    | some pc0 =>
      simp only [mpf_step, if_pos hgt, hst]
      by_cases hv : iv.2 > pc0.2
      · simp only [if_pos hv]
        exact ⟨h1, fun pc hpc => by
          simp only [Option.some.injEq] at hpc
          subst hpc
          exact hiv2 hgt⟩
      · simp only [if_neg hv]
        exact ⟨h1, fun pc hpc => h2 pc (hst ▸ hpc)⟩
  · by_cases hlt : iv.2 < baseline signal iv.1 ∧ st.2.isSome = true
    · cases hst : st.2 with
      | none => rw [hst] at hlt; simp at hlt
      | some pc0 =>
        simp only [mpf_step, if_neg hgt, hst, if_pos (hst ▸ hlt)]
        refine ⟨fun j hj => ?_, fun pc hpc => by simp at hpc⟩
        rcases List.mem_append.mp hj with hj1 | hj2
        · exact h1 j hj1
        · rw [List.mem_singleton.mp hj2]
          exact h2 pc0 hst
    · cases hst : st.2 with
      | none =>
        simp only [mpf_step, if_neg hgt, hst]
        have hlt' : ¬(iv.2 < baseline signal iv.1 ∧ (none : Option (ℕ × ℚ)).isSome = true) := by
          simp
        simp only [if_neg hlt']
        exact ⟨h1, fun pc hpc => h2 pc (hst ▸ hpc)⟩
      | some pc0 =>
        simp only [mpf_step, if_neg hgt, hst, if_neg (hst ▸ hlt)]
        exact ⟨h1, fun pc hpc => h2 pc (hst ▸ hpc)⟩

theorem mpf_fold_inv (signal : List ℚ) :
    ∀ (l : List (ℕ × ℚ)) (st : List ℕ × Option (ℕ × ℚ)),
      (∀ iv ∈ l, iv.1 < signal.length ∧ signal.getD iv.1 0 = iv.2) →
      (∀ j ∈ st.1, j < signal.length ∧ baseline signal j < signal.getD j 0) →
      (∀ pc : ℕ × ℚ, st.2 = some pc →
        pc.1 < signal.length ∧ baseline signal pc.1 < signal.getD pc.1 0) →
      (∀ j ∈ (l.foldl (mpf_step signal) st).1,
          j < signal.length ∧ baseline signal j < signal.getD j 0) ∧
      (∀ pc : ℕ × ℚ, (l.foldl (mpf_step signal) st).2 = some pc →
          pc.1 < signal.length ∧ baseline signal pc.1 < signal.getD pc.1 0) := by
  intro l
  induction l with
  | nil =>
    intro st _ h1 h2
    exact ⟨h1, h2⟩
  | cons iv l ih =>
    intro st hl h1 h2
    simp only [List.foldl_cons]
    obtain ⟨h1', h2'⟩ :=
      mpf_step_inv signal st iv (hl iv (List.mem_cons_self iv l)) h1 h2
    exact ih (mpf_step signal st iv) (fun x hx => hl x (List.mem_cons_of_mem iv hx)) h1' h2'

/-- C5: every index returned by the peak detector's single left-to-right
scan was recorded while its value strictly exceeded its per-index baseline
(the mean of the current and next value, clamped at the array end): for
every `i` in the output, `i` is in bounds and `signal[i] > baseline i`.
Candidates are emitted on a strict drop below baseline and any still-open
candidate at sequence end is emitted, as the definitions
`mpf_step`/`multiple_peak_finding` translate from the source. -/
theorem peaks_above_baseline (signal : List ℚ) (i : ℕ)
    (hi : i ∈ multiple_peak_finding signal) :
    i < signal.length ∧ baseline signal i < signal.getD i 0 := by
  have henum : ∀ iv ∈ signal.enum, iv.1 < signal.length ∧ signal.getD iv.1 0 = iv.2 := by
    intro iv hiv
    have h := List.mem_enum_iff_getElem?.mp hiv
    obtain ⟨hlt, hget⟩ := List.getElem?_eq_some.mp h
    exact ⟨hlt, by rw [List.getD_eq_getElem _ _ hlt, hget]⟩
  obtain ⟨h1, h2⟩ :=
    mpf_fold_inv signal signal.enum ([], none) henum (by simp) (by simp)
  simp only [multiple_peak_finding] at hi
  split at hi
  · rename_i pc heq
    rcases List.mem_append.mp hi with hm | hm
    · exact h1 i hm
    · rw [List.mem_singleton.mp hm]
      exact h2 pc heq
  · exact h1 i hi

/-- C5 witness: the concrete signal `[0, 5, 0]`, whose returned peak index
is `1`. -/
theorem peaks_above_baseline_witness :
    1 < ([0, 5, 0] : List ℚ).length ∧ baseline [0, 5, 0] 1 < ([0, 5, 0] : List ℚ).getD 1 0 :=
  peaks_above_baseline [0, 5, 0] 1
    (by norm_num [multiple_peak_finding, mpf_step, baseline, List.enum, List.enumFrom])

theorem min_by_fold_spec (t : ℚ) :
    ∀ (xs : List (ℕ × ℚ)) (x : ℕ × ℚ),
      (∀ y ∈ x :: xs, |(xs.foldl (min_by_step t) x).2 - t| ≤ |y.2 - t|) ∧
      ∃ pre suf, x :: xs = pre ++ (xs.foldl (min_by_step t) x) :: suf ∧
        ∀ y ∈ pre, |(xs.foldl (min_by_step t) x).2 - t| < |y.2 - t| := by
  intro xs
  induction xs with
  | nil =>
    intro x
    simp only [List.foldl_nil]
    constructor
    · intro y hy
      simp [List.mem_singleton.mp hy]
    · exact ⟨[], [], rfl, by simp⟩
  | cons p ps ih =>
    intro x
    simp only [List.foldl_cons]
    by_cases hc : |x.2 - t| > |p.2 - t|
    · rw [show min_by_step t x p = p from if_pos hc]
      obtain ⟨hmin, pre, suf, hsplit, hstrict⟩ := ih p
      have hrp : |(ps.foldl (min_by_step t) p).2 - t| ≤ |p.2 - t| :=
        hmin p (List.mem_cons_self p ps)
      constructor
      · intro y hy
        rcases List.mem_cons.mp hy with hy | hy
        · subst hy
          linarith
        · exact hmin y hy
      · refine ⟨x :: pre, suf, by rw [List.cons_append, ← hsplit], ?_⟩
        intro y hy
        rcases List.mem_cons.mp hy with hy | hy
        · subst hy
          linarith
        · exact hstrict y hy
    · rw [show min_by_step t x p = x from if_neg hc]
      push_neg at hc
      obtain ⟨hmin, pre, suf, hsplit, hstrict⟩ := ih x
      set r := ps.foldl (min_by_step t) x with hr
      have hrx : |r.2 - t| ≤ |x.2 - t| :=
        hmin x (List.mem_cons_self x ps)
      constructor
      · intro y hy
        rcases List.mem_cons.mp hy with hy | hy
        · subst hy
          exact hrx
        · rcases List.mem_cons.mp hy with hy | hy
          · subst hy
            linarith
          · exact hmin y (List.mem_cons_of_mem x hy)
      · cases pre with
        | nil =>
          simp only [List.nil_append, List.cons.injEq] at hsplit
          refine ⟨[], p :: ps, ?_, by simp⟩
          rw [List.nil_append, ← hsplit.1]
        | cons q pre2 =>
          simp only [List.cons_append, List.cons.injEq] at hsplit
          obtain ⟨hqx, hps⟩ := hsplit
          subst hqx
          have hstrx : |r.2 - t| < |x.2 - t| :=
            hstrict x (List.mem_cons_self x pre2)
          refine ⟨x :: p :: pre2, suf, ?_, ?_⟩
          · rw [hps]
            simp
          · intro y hy
            rcases List.mem_cons.mp hy with hy | hy
            · subst hy
              exact hstrx
            · rcases List.mem_cons.mp hy with hy | hy
              · subst hy
                linarith
              · exact hstrict y (List.mem_cons_of_mem x hy)

/-- C9: for every non-empty array `v` and query time `t`, `idx_at_t` returns
an in-bounds index minimizing the absolute difference `|v[j] - t|`, and
every strictly earlier index has a strictly larger difference — so ties go
to the first (lowest) such index. -/
theorem idx_at_t_nearest (v : List ℚ) (t : ℚ) (hv : v ≠ []) :
    idx_at_t v t < v.length ∧
    (∀ j, j < v.length → |v.getD (idx_at_t v t) 0 - t| ≤ |v.getD j 0 - t|) ∧
    (∀ j, j < idx_at_t v t → |v.getD (idx_at_t v t) 0 - t| < |v.getD j 0 - t|) := by
  cases hE : v.enum with
  | nil =>
    exfalso
    apply hv
    have h0 : v.length = 0 := by
      have hl : v.enum.length = v.length := List.enum_length
      rw [hE] at hl
      simpa using hl.symm
    exact List.length_eq_zero.mp h0
  | cons e es =>
    obtain ⟨hmin, pre, suf, hsplit, hstrict⟩ := min_by_fold_spec t es e
    have hidx : idx_at_t v t = (es.foldl (min_by_step t) e).1 := by
      unfold idx_at_t min_by_abs
      rw [hE]
      rfl
    have hEC : v.enum = pre ++ (es.foldl (min_by_step t) e) :: suf := by
      rw [hE, hsplit]
    have hgetr : v.enum[pre.length]? = some (es.foldl (min_by_step t) e) := by
      rw [hEC, List.getElem?_append, if_neg (lt_irrefl _), Nat.sub_self]
      simp
    rw [List.getElem?_enum] at hgetr
    rcases hv2 : v[pre.length]? with _ | a
    · rw [hv2] at hgetr
      simp at hgetr
    · rw [hv2] at hgetr
      simp only [Option.map_some', Option.some.injEq] at hgetr
      obtain ⟨hvlen, hva⟩ := List.getElem?_eq_some.mp hv2
      have hr1 : (es.foldl (min_by_step t) e).1 = pre.length := by rw [← hgetr]
      have hr2 : (es.foldl (min_by_step t) e).2 = a := by rw [← hgetr]
      have hgd : v.getD (idx_at_t v t) 0 = (es.foldl (min_by_step t) e).2 := by
        rw [hidx, hr1, hr2, List.getD_eq_getElem _ _ hvlen, hva]
      refine ⟨by rw [hidx, hr1]; exact hvlen, ?_, ?_⟩
      · intro j hj
        have hje : v.enum[j]? = some (j, v[j]) := by
          rw [List.getElem?_enum, List.getElem?_eq_getElem hj]
          rfl
        have hmem : (j, v[j]) ∈ e :: es := by
          rw [← hE]
          exact List.getElem?_mem hje
        have := hmin (j, v[j]) hmem
        rw [hgd, List.getD_eq_getElem _ _ hj]
        exact this
      · intro j hj
        rw [hidx, hr1] at hj
        have hjv : j < v.length := lt_trans hj hvlen
        have hje : v.enum[j]? = some (j, v[j]) := by
          rw [List.getElem?_enum, List.getElem?_eq_getElem hjv]
          rfl
        have hpre : pre[j]? = some (j, v[j]) := by
          rw [hEC, List.getElem?_append, if_pos hj] at hje
          exact hje
        have hmem : (j, v[j]) ∈ pre := List.getElem?_mem hpre
        have := hstrict (j, v[j]) hmem
        rw [hgd, List.getD_eq_getElem _ _ hjv]
        exact this

/-- C9 witness: the concrete vector `[3, 1, 1]` with query time `0`
(the minimum distance `1` is attained at indices `1` and `2`; the returned
index is the first). -/
theorem idx_at_t_nearest_witness :
    idx_at_t [3, 1, 1] 0 < ([3, 1, 1] : List ℚ).length ∧
    (∀ j, j < ([3, 1, 1] : List ℚ).length →
      |([3, 1, 1] : List ℚ).getD (idx_at_t [3, 1, 1] 0) 0 - 0|
        ≤ |([3, 1, 1] : List ℚ).getD j 0 - 0|) ∧
    (∀ j, j < idx_at_t [3, 1, 1] 0 →
      |([3, 1, 1] : List ℚ).getD (idx_at_t [3, 1, 1] 0) 0 - 0|
        < |([3, 1, 1] : List ℚ).getD j 0 - 0|) :=
  idx_at_t_nearest [3, 1, 1] 0 (by simp)

end FMCW
